import Mathlib

set_option maxHeartbeats 1000000
set_option maxRecDepth 4000

/-! Verification of the Ideaboard Flasher & Terminal page (`src/script.js`).

Strings are modelled as `List Char` (JavaScript strings of UTF-16 units /
decoded text).  Each global-regex `replace(re, '')` pass of
`cleanSerialOutput` is embedded as a deterministic left-to-right scanner:
a JS global replace scans left to right, at each position takes the match
there if any (lazy quantifiers take the shortest match), removes it and
resumes after it, otherwise emits the character and moves on one.  Since
every pattern of `cleanSerialOutput` can only start at an ESC character,
the scan is realised as a small automaton whose pending text is flushed
verbatim when an attempted match fails. -/

/-- The ESC character 0x1B. -/
def escChar : Char := '\x1B'

/-- The BEL character 0x07. -/
def belChar : Char := '\x07'

/-- Characters matched by `[0-9;]` in the CSI regex `\x1B\[[0-9;]*[a-zA-Z]`
(codes 48-57 and 59). -/
def isCsiParam (c : Char) : Bool :=
  (decide (48 ≤ c.toNat) && decide (c.toNat ≤ 57)) || decide (c.toNat = 59)

/-- Characters matched by the final `[a-zA-Z]` of the CSI regex
(codes 97-122 and 65-90). -/
def isCsiFinal (c : Char) : Bool :=
  (decide (97 ≤ c.toNat) && decide (c.toNat ≤ 122)) ||
  (decide (65 ≤ c.toNat) && decide (c.toNat ≤ 90))

/-- JavaScript line terminators, which `.` in a regex never matches:
LF, CR, U+2028, U+2029. -/
def isLineTerm (c : Char) : Bool :=
  c == '\n' || c == '\r' || c.toNat == 0x2028 || c.toNat == 0x2029

/-- Characters removed by the control-byte pass
`[\x00-\x09\x0B-\x1F\x7F-\x9F]`. -/
def isStrippedCtl (c : Char) : Bool :=
  decide (c.toNat ≤ 0x09) ||
  (decide (0x0B ≤ c.toNat) && decide (c.toNat ≤ 0x1F)) ||
  (decide (0x7F ≤ c.toNat) && decide (c.toNat ≤ 0x9F))

/-! ### Pass 1: `replace(/\x1B\[[0-9;]*[a-zA-Z]/g, '')` -/

/-- Scanner state for the CSI pass: outside any candidate match, just after
an ESC, or inside the `[0-9;]*` run (with the parameter characters seen). -/
inductive CsiSt
| norm
| esc
| par (seen : List Char)
deriving DecidableEq

/-- One character of the CSI scan: the characters emitted and the new state.
A failed candidate flushes its pending characters verbatim; the failing
character is reconsidered as a possible new match start (only ESC can
start a match). -/
def csiStep : CsiSt → Char → List Char × CsiSt
| .norm, c => if c = escChar then ([], .esc) else ([c], .norm)
| .esc, c =>
    if c = '[' then ([], .par [])
    else if c = escChar then ([escChar], .esc)
    else ([escChar, c], .norm)
| .par seen, c =>
    if isCsiParam c then ([], .par (seen ++ [c]))
    else if isCsiFinal c then ([], .norm)
    else if c = escChar then (escChar :: '[' :: seen, .esc)
    else (escChar :: '[' :: (seen ++ [c]), .norm)

/-- Pending (not yet emitted) characters of a CSI scanner state. -/
def csiPend : CsiSt → List Char
| .norm => []
| .esc => [escChar]
| .par seen => escChar :: '[' :: seen

/-- Run the CSI scanner over a list of characters. -/
def csiExec : CsiSt → List Char → List Char × CsiSt
| st, [] => ([], st)
| st, c :: rest =>
    let p := csiStep st c
    let q := csiExec p.2 rest
    (p.1 ++ q.1, q.2)

/-- The whole CSI pass: scan from the outside state and flush what is
pending at the end of the string (an incomplete candidate never matches). -/
def stripCsi (s : List Char) : List Char :=
  (csiExec .norm s).1 ++ csiPend (csiExec .norm s).2

/-! ### Passes 2-4: the OSC title passes
`replace(/\x1B\]0;.*?\x07/g, '')`, `replace(/\x1B\]0;.*?\x5C/g, '')`,
`replace(/\x1B\]0;.*?[\x07\x5C]/g, '')`.
All three have the shape `ESC ] 0 ;` followed by a lazy run of `.`
(anything but a line terminator) up to a terminator character; they are
embedded as one scanner parameterised by the terminator predicate. -/

/-- Scanner state for an OSC pass: outside, after ESC, after `ESC]`,
after `ESC]0`, or inside the lazy `.*?` body (with the body seen). -/
inductive OscSt
| norm
| esc
| brk
| zero
| body (seen : List Char)
deriving DecidableEq

/-- One character of an OSC scan.  In `body`, a terminator character ends
the match (everything is dropped); a line terminator makes the candidate
fail, flushing it verbatim; anything else (ESC included, as `.` matches
it) is swallowed into the body. -/
def oscStep (isTerm : Char → Bool) : OscSt → Char → List Char × OscSt
| .norm, c => if c = escChar then ([], .esc) else ([c], .norm)
| .esc, c =>
    if c = ']' then ([], .brk)
    else if c = escChar then ([escChar], .esc)
    else ([escChar, c], .norm)
| .brk, c =>
    if c = '0' then ([], .zero)
    else if c = escChar then ([escChar, ']'], .esc)
    else ([escChar, ']', c], .norm)
| .zero, c =>
    if c = ';' then ([], .body [])
    else if c = escChar then ([escChar, ']', '0'], .esc)
    else ([escChar, ']', '0', c], .norm)
| .body seen, c =>
    if isTerm c then ([], .norm)
    else if isLineTerm c then (escChar :: ']' :: '0' :: ';' :: (seen ++ [c]), .norm)
    else ([], .body (seen ++ [c]))

/-- Pending characters of an OSC scanner state. -/
def oscPend : OscSt → List Char
| .norm => []
| .esc => [escChar]
| .brk => [escChar, ']']
| .zero => [escChar, ']', '0']
| .body seen => escChar :: ']' :: '0' :: ';' :: seen

/-- Run an OSC scanner over a list of characters. -/
def oscExec (isTerm : Char → Bool) : OscSt → List Char → List Char × OscSt
| st, [] => ([], st)
| st, c :: rest =>
    let p := oscStep isTerm st c
    let q := oscExec isTerm p.2 rest
    (p.1 ++ q.1, q.2)

/-- A whole OSC pass with the given terminator predicate. -/
def stripOsc (isTerm : Char → Bool) (s : List Char) : List Char :=
  (oscExec isTerm .norm s).1 ++ oscPend (oscExec isTerm .norm s).2

/-- Terminator of the second pass: BEL. -/
def isBel (c : Char) : Bool := c == belChar

/-- Terminator of the third pass: a (bare) backslash `\x5C`. -/
def isBsl (c : Char) : Bool := c == '\\'

/-- Terminator of the fourth pass: `[\x07\x5C]`. -/
def isBelOrBsl (c : Char) : Bool := c == belChar || c == '\\'

/-! ### Passes 5-7 and the whole cleaner -/

/-- Pass 5: `replace(/[\x00-\x09\x0B-\x1F\x7F-\x9F]/g, '')`. -/
def stripCtl (s : List Char) : List Char := s.filter (fun c => !isStrippedCtl c)

/-- Pass 6: `replace(/\r\n/g, '\n')`. -/
def crlfToLf : List Char → List Char
| [] => []
| [c] => [c]
| c :: d :: rest =>
  if c = '\r' ∧ d = '\n' then '\n' :: crlfToLf rest
  else c :: crlfToLf (d :: rest)

/-- Pass 7: `replace(/\r/g, '')`. -/
def dropCr (s : List Char) : List Char := s.filter (fun c => c ≠ '\r')

/-- `cleanSerialOutput` from `src/script.js` lines 255-263: the six chained
`replace` passes in source order. -/
def cleanSerialOutput (s : List Char) : List Char :=
  dropCr (crlfToLf (stripCtl
    (stripOsc isBelOrBsl (stripOsc isBsl (stripOsc isBel (stripCsi s))))))

example : cleanSerialOutput ['\x1B', '[', '2', 'K', 'h', 'i'] = ['h', 'i'] := by decide

example : cleanSerialOutput
    ['\x1B', ']', '0', ';', 't', '\x07', 'o', 'k'] = ['o', 'k'] := by decide

example : cleanSerialOutput
    ['\x1B', ']', '0', ';', 't', '\x1B', '\\', 'o', 'k'] = ['o', 'k'] := by decide

example : cleanSerialOutput ['\r'] = [] := by decide

example : cleanSerialOutput ['w', '\x07'] = ['w'] := by decide

/-! ### The terminal read loop's line buffering (`clickTerminal`, lines 196-217)

On each received chunk the code appends it to `buffer` and then repeatedly
takes the text before the first `'\n'` as a candidate line, cleans it, and
displays it when the cleaned text is non-empty.  `splitLines` performs the
inner `while` on a whole buffer: it returns the candidate lines in order
and the remaining buffer (which contains no `'\n'`). -/

/-- Split a buffer at every `'\n'`: the candidate lines before each `'\n'`
in order, and the leftover text after the last `'\n'`. -/
def splitLines : List Char → List (List Char) × List Char
| [] => ([], [])
| c :: rest =>
  let p := splitLines rest
  if c = '\n' then ([] :: p.1, p.2)
  else
    match p.1 with
    | [] => ([], c :: p.2)
    | l :: ls => ((c :: l) :: ls, p.2)

/-- `if (cleanedLine) logLine(cleanedLine)`: the display entry produced by a
candidate line, if any — the cleaned line when non-empty. -/
def emitLine (l : List Char) : Option (List Char) :=
  if cleanSerialOutput l = [] then none else some (cleanSerialOutput l)

/-- Feed chunks one at a time through the buffer-and-split loop, starting
from a given buffer: all candidate lines produced, and the final buffer. -/
def feedChunks : List Char → List (List Char) → List (List Char) × List Char
| buf, [] => ([], buf)
| buf, ch :: rest =>
  let p := splitLines (buf ++ ch)
  let q := feedChunks p.2 rest
  (p.1 ++ q.1, q.2)

/-- The display lines emitted by the read loop on a sequence of decoded
text chunks (starting from an empty buffer), and the final buffer. -/
def processChunks (cs : List (List Char)) : List (List Char) × List Char :=
  ((feedChunks [] cs).1.filterMap emitLine, (feedChunks [] cs).2)

example : splitLines ['a', '\n', 'b'] = ([['a']], ['b']) := by decide

example : processChunks [['h', 'i', '\n', '\r', '\n', 'x']] = ([['h', 'i']], ['x']) := by
  decide

/-! ### Per-chunk text decoding (`decoder.decode(value)`, line 208)

The read loop decodes each byte chunk with `decoder.decode(value)` —
without `{stream: true}` — so every chunk is decoded in isolation by the
WHATWG UTF-8 decoder: a well-formed sequence yields its scalar value; an
invalid lead byte yields one U+FFFD; an invalid continuation byte yields
one U+FFFD and is then reconsidered as a new lead; a sequence truncated
by the end of the chunk yields one U+FFFD. -/

/-- The replacement character U+FFFD emitted by the decoder on error. -/
def replacementChar : Char := Char.ofNat 0xFFFD

/-- A UTF-8 continuation byte, 0x80-0xBF. -/
def utf8Cont (b : Nat) : Bool := decide (0x80 ≤ b) && decide (b ≤ 0xBF)

/-- The second byte allowed after a three-byte lead `b`: 0xA0-0xBF after
0xE0, 0x80-0x9F after 0xED (excluding surrogates), else 0x80-0xBF. -/
def utf8Cont2 (b b2 : Nat) : Bool :=
  decide ((if b = 0xE0 then 0xA0 else 0x80) ≤ b2) &&
  decide (b2 ≤ (if b = 0xED then 0x9F else 0xBF))

/-- The second byte allowed after a four-byte lead `b`: 0x90-0xBF after
0xF0, 0x80-0x8F after 0xF4, else 0x80-0xBF. -/
def utf8Cont3 (b b2 : Nat) : Bool :=
  decide ((if b = 0xF0 then 0x90 else 0x80) ≤ b2) &&
  decide (b2 ≤ (if b = 0xF4 then 0x8F else 0xBF))

/-- The scalar value of a two-byte sequence. -/
def utf8Val2 (b b2 : Nat) : Nat := (b - 0xC0) * 64 + (b2 - 0x80)

/-- The scalar value of a three-byte sequence. -/
def utf8Val3 (b b2 b3 : Nat) : Nat :=
  (b - 0xE0) * 4096 + (b2 - 0x80) * 64 + (b3 - 0x80)

/-- The scalar value of a four-byte sequence. -/
def utf8Val4 (b b2 b3 b4 : Nat) : Nat :=
  (b - 0xF0) * 262144 + (b2 - 0x80) * 4096 + (b3 - 0x80) * 64 + (b4 - 0x80)

/-- Non-streaming WHATWG UTF-8 decode of one chunk, as performed by
`decoder.decode(value)` on each read.  An invalid byte yields one U+FFFD
and, if it aborted a longer sequence, is reconsidered as a new lead; a
sequence truncated by the end of the chunk yields one U+FFFD. -/
def utf8Decode : List Nat → List Char
| [] => []
| [b] =>
  if b < 0x80 then [Char.ofNat b] else [replacementChar]
| [b, b2] =>
  if b < 0x80 then Char.ofNat b :: utf8Decode [b2]
  else if 0xC2 ≤ b ∧ b ≤ 0xDF then
    if utf8Cont b2 then [Char.ofNat (utf8Val2 b b2)]
    else replacementChar :: utf8Decode [b2]
  else if 0xE0 ≤ b ∧ b ≤ 0xEF then
    if utf8Cont2 b b2 then [replacementChar]
    else replacementChar :: utf8Decode [b2]
  else if 0xF0 ≤ b ∧ b ≤ 0xF4 then
    if utf8Cont3 b b2 then [replacementChar]
    else replacementChar :: utf8Decode [b2]
  else replacementChar :: utf8Decode [b2]
| [b, b2, b3] =>
  if b < 0x80 then Char.ofNat b :: utf8Decode [b2, b3]
  else if 0xC2 ≤ b ∧ b ≤ 0xDF then
    if utf8Cont b2 then Char.ofNat (utf8Val2 b b2) :: utf8Decode [b3]
    else replacementChar :: utf8Decode [b2, b3]
  else if 0xE0 ≤ b ∧ b ≤ 0xEF then
    if utf8Cont2 b b2 then
      if utf8Cont b3 then [Char.ofNat (utf8Val3 b b2 b3)]
      else replacementChar :: utf8Decode [b3]
    else replacementChar :: utf8Decode [b2, b3]
  else if 0xF0 ≤ b ∧ b ≤ 0xF4 then
    if utf8Cont3 b b2 then
      if utf8Cont b3 then [replacementChar]
      else replacementChar :: utf8Decode [b3]
    else replacementChar :: utf8Decode [b2, b3]
  else replacementChar :: utf8Decode [b2, b3]
| b :: b2 :: b3 :: b4 :: rest =>
  if b < 0x80 then Char.ofNat b :: utf8Decode (b2 :: b3 :: b4 :: rest)
  else if 0xC2 ≤ b ∧ b ≤ 0xDF then
    if utf8Cont b2 then Char.ofNat (utf8Val2 b b2) :: utf8Decode (b3 :: b4 :: rest)
    else replacementChar :: utf8Decode (b2 :: b3 :: b4 :: rest)
  else if 0xE0 ≤ b ∧ b ≤ 0xEF then
    if utf8Cont2 b b2 then
      if utf8Cont b3 then Char.ofNat (utf8Val3 b b2 b3) :: utf8Decode (b4 :: rest)
      else replacementChar :: utf8Decode (b3 :: b4 :: rest)
    else replacementChar :: utf8Decode (b2 :: b3 :: b4 :: rest)
  else if 0xF0 ≤ b ∧ b ≤ 0xF4 then
    if utf8Cont3 b b2 then
      if utf8Cont b3 then
        if utf8Cont b4 then Char.ofNat (utf8Val4 b b2 b3 b4) :: utf8Decode rest
        else replacementChar :: utf8Decode (b4 :: rest)
      else replacementChar :: utf8Decode (b3 :: b4 :: rest)
    else replacementChar :: utf8Decode (b2 :: b3 :: b4 :: rest)
  else replacementChar :: utf8Decode (b2 :: b3 :: b4 :: rest)

/-- A byte list made only of complete well-formed UTF-8 sequences (every
chunk boundary falls on a character boundary). -/
def wellFormedUtf8 : List Nat → Bool
| [] => true
| [b] => decide (b < 0x80)
| [b, b2] =>
  if b < 0x80 then wellFormedUtf8 [b2]
  else if 0xC2 ≤ b ∧ b ≤ 0xDF then utf8Cont b2
  else false
| [b, b2, b3] =>
  if b < 0x80 then wellFormedUtf8 [b2, b3]
  else if 0xC2 ≤ b ∧ b ≤ 0xDF then utf8Cont b2 && wellFormedUtf8 [b3]
  else if 0xE0 ≤ b ∧ b ≤ 0xEF then utf8Cont2 b b2 && utf8Cont b3
  else false
| b :: b2 :: b3 :: b4 :: rest =>
  if b < 0x80 then wellFormedUtf8 (b2 :: b3 :: b4 :: rest)
  else if 0xC2 ≤ b ∧ b ≤ 0xDF then utf8Cont b2 && wellFormedUtf8 (b3 :: b4 :: rest)
  else if 0xE0 ≤ b ∧ b ≤ 0xEF then
    utf8Cont2 b b2 && utf8Cont b3 && wellFormedUtf8 (b4 :: rest)
  else if 0xF0 ≤ b ∧ b ≤ 0xF4 then
    utf8Cont3 b b2 && utf8Cont b3 && utf8Cont b4 && wellFormedUtf8 rest
  else false

/-- The read loop on raw byte chunks: each chunk is decoded in isolation
(line 208), then buffered and split into display lines. -/
def processChunksBytes (cs : List (List Nat)) : List (List Char) × List Char :=
  processChunks (cs.map utf8Decode)

example : utf8Decode [0x68, 0x69] = ['h', 'i'] := by decide

example : utf8Decode [0xC3, 0xA9] = ['é'] := by decide

example : utf8Decode [0xE2, 0x82, 0xAC] = ['€'] := by decide

example : utf8Decode [0xC3] = [replacementChar] := by decide

example : utf8Decode [0xA9, 0x0A] = [replacementChar, '\n'] := by decide

example : wellFormedUtf8 [0xC3, 0xA9, 0x0A] = true := by decide

example : wellFormedUtf8 [0xC3] = false := by decide

/-! ### Monitoring session model (`clickTerminal` / `stopMonitoring`,
lines 170-253)

The module-level mutable state touched by the terminal code is collected
in `MState`; handles (`transport`, `port`, `device`, `reader`) are tracked
by presence, the port's open/readable status separately.  `uiConnected`
records what `toggleUI` last showed (`true` = program/terminal enabled and
the connect button reading "Disconnect").  Log output is kept as a list of
tagged messages. -/

/-- A log entry: a cleaned serial display line, or one of the fixed
terminal status / error messages. -/
inductive LogMsg
| serialLine (s : List Char)
| deviceLostNotice
| streamEnded
| terminalStopped
| terminalFailed
| noPortError
deriving DecidableEq

/-- The module-level state read and written by the terminal code. -/
structure MState where
  transport : Bool
  port : Bool
  portOpen : Bool
  device : Bool
  reader : Bool
  isMonitoring : Bool
  uiConnected : Bool
  buffer : List Char
  logs : List LogMsg
deriving DecidableEq

/-- Append one log entry (`logLine` / `logError`). -/
def logMsg (m : LogMsg) (s : MState) : MState := { s with logs := s.logs ++ [m] }

/-- One successful `reader.read()` delivering decoded text `t`
(lines 208-217): append to the buffer, then split, clean and display. -/
def feedText (s : MState) (t : List Char) : MState :=
  { s with
    buffer := (splitLines (s.buffer ++ t)).2,
    logs := s.logs ++
      ((splitLines (s.buffer ++ t)).1.filterMap emitLine).map LogMsg.serialLine }

/-- What one `reader.read()` call can produce: a chunk of bytes, stream
end, or a rejection (whose message may or may not say the device was
lost). -/
inductive ReadEvent
| chunk (t : List Char)
| done
| fail (deviceLost : Bool)
deriving DecidableEq

/-- The `while (isMonitoring)` read loop (lines 196-225) run over a list
of read results.  Returns the state when the loop is left and whether an
exception was rethrown out of the loop (line 223).  A "device lost" error
is caught inside the loop: it logs a notice and breaks (lines 219-222).
`done` flushes the buffer and breaks (lines 199-207). -/
def monitorLoop : MState → List ReadEvent → MState × Bool
| s, [] => (s, false)
| s, ev :: rest =>
  if s.isMonitoring then
    match ev with
    | .chunk t => monitorLoop (feedText s t) rest
    | .done =>
        let s1 :=
          if s.buffer = [] then s
          else
            match emitLine s.buffer with
            | some c => { s with buffer := [], logs := s.logs ++ [LogMsg.serialLine c] }
            | none => { s with buffer := [] }
        (logMsg .streamEnded s1, false)
    | .fail devLost =>
        if devLost then (logMsg .deviceLostNotice s, false) else (s, true)
  else (s, false)

/-- `stopMonitoring` (lines 233-253): clear the monitoring flag, cancel and
release the reader, close the port if still readable, null out `port` and
`device`, and set the UI to the disconnected state. -/
def stopMonitoring (s : MState) : MState :=
  let s1 := { s with isMonitoring := false }
  let s2 := if s1.reader then { s1 with reader := false } else s1
  let s3 := if s2.port ∧ s2.portOpen then { s2 with portOpen := false } else s2
  logMsg .terminalStopped { s3 with port := false, device := false, uiConnected := false }

/-- The setup performed by `clickTerminal` before the read loop
(lines 182-194): open the port, flip the button to Stop, clear the log,
reset the buffer, acquire a reader. -/
def termSetup (s : MState) : MState :=
  { s with portOpen := true, isMonitoring := true, reader := true,
           buffer := [], logs := [] }

/-- `clickTerminal` (lines 170-231) with the reads it will observe given
as a list: toggle off when monitoring; complain without a port; otherwise
run the loop and, in the `finally`, stop monitoring if still flagged.  Any
exception rethrown by the loop is caught by the outer `catch`
(lines 226-227), so nothing propagates out. -/
def clickTerminal (evs : List ReadEvent) (s : MState) : MState :=
  if s.isMonitoring then stopMonitoring s
  else if s.port then
    let r := monitorLoop (termSetup s) evs
    let s2 := if r.2 then logMsg .terminalFailed r.1 else r.1
    if s2.isMonitoring then stopMonitoring s2 else s2
  else logMsg .noPortError s

/-- The state right after a successful `clickConnect` (lines 89-98):
transport and port handles set, UI connected, not monitoring. -/
def connectedInit : MState :=
  { transport := true, port := true, portOpen := false, device := true,
    reader := false, isMonitoring := false, uiConnected := true,
    buffer := [], logs := [] }

/-- The spec's observable "Connected" UI state: connection present,
monitoring stopped, UI showing the connected affordances. -/
def inConnectedState (s : MState) : Bool :=
  s.transport && s.port && !s.isMonitoring && s.uiConnected

example : inConnectedState (clickTerminal [.fail true] connectedInit) = false := by decide

example : (clickTerminal [.fail true] connectedInit).transport = true := by decide

/-! ### Firmware byte conversion (`arrayBufferToBinaryString`, lines 275-282) -/

/-- `arrayBufferToBinaryString`: build a string by appending
`String.fromCharCode(b)` for each byte of the buffer in order. -/
def arrayBufferToBinaryString (bytes : List Nat) : List Char :=
  bytes.foldl (fun acc b => acc ++ [Char.ofNat b]) []

/-! ### Programming model (`clickProgram`, lines 101-168)

The `try` block runs `esploader.main`, `eraseFlash`, the firmware `fetch`,
and `writeFlash` in that order; any of the four can reject, which jumps to
the `catch`.  The `finally` block re-enables the program button,
disconnects the transport, and closes the port if still readable.  The
operations attempted are recorded as a trace. -/

/-- One entry of the flash options `fileArray`. -/
structure FlashFile where
  data : List Char
  address : Nat
deriving DecidableEq

/-- The options object passed to `esploader.writeFlash` (lines 140-147);
the progress callback and MD5 hash function carry no data and are not
modelled. -/
structure FlashOptions where
  fileArray : List FlashFile
  flashSize : String
  eraseAll : Bool
  compress : Bool
deriving DecidableEq

/-- `FLASH_OFFSET` (line 5). -/
def FLASH_OFFSET : Nat := 0

/-- The `flashOptions` value built for a fetched firmware image
(lines 140-147). -/
def flashOptions (firmwareData : List Char) : FlashOptions :=
  { fileArray := [{ data := firmwareData, address := FLASH_OFFSET }],
    flashSize := "keep", eraseAll := false, compress := true }

/-- An external operation invoked by the programming sequence. -/
inductive ProgOp
| mainOp
| eraseOp
| fetchOp
| writeOp (opts : FlashOptions)
deriving DecidableEq

/-- How the programming sequence ends: success, or the first step that
rejects (bootloader entry, erase, fetch, write). -/
inductive ProgOutcome
| success
| failEntry
| failErase
| failFetch
| failWrite
deriving DecidableEq

/-- The operations attempted in the `try` block for each outcome, and
whether the block completed without an exception. -/
def progSteps (fw : List Nat) : ProgOutcome → List ProgOp × Bool
| .success =>
    ([.mainOp, .eraseOp, .fetchOp,
      .writeOp (flashOptions (arrayBufferToBinaryString fw))], true)
| .failEntry => ([.mainOp], false)
| .failErase => ([.mainOp, .eraseOp], false)
| .failFetch => ([.mainOp, .eraseOp, .fetchOp], false)
| .failWrite =>
    ([.mainOp, .eraseOp, .fetchOp,
      .writeOp (flashOptions (arrayBufferToBinaryString fw))], false)

/-- The module-level state read and written by `clickProgram`. -/
structure PState where
  transport : Bool
  port : Bool
  portReadable : Bool
  esploader : Bool
  butProgramDisabled : Bool
  firmwareSelected : Bool
  confirmOk : Bool
  errorCount : Nat
  trace : List ProgOp
deriving DecidableEq

/-- `clickProgram` (lines 101-168) on firmware `fw` with outcome `o`:
guard clauses (lines 102-113), the `try`/`catch` (an error adds a log
entry, counted here), then the unconditional `finally` (lines 156-167). -/
def clickProgram (fw : List Nat) (o : ProgOutcome) (s : PState) : PState :=
  if s.transport then
    if s.firmwareSelected then
      if s.confirmOk then
        let s1 := { s with butProgramDisabled := true, esploader := true }
        let r := progSteps fw o
        let s2 := { s1 with trace := s1.trace ++ r.1,
                            errorCount := s1.errorCount + (if r.2 then 0 else 1) }
        let s3 := { s2 with butProgramDisabled := false }
        let s4 := if s3.transport then { s3 with transport := false } else s3
        let s5 :=
          if s4.port ∧ s4.portReadable then
            { s4 with portReadable := false, port := false }
          else s4
        { s5 with esploader := false }
      else s
    else { s with errorCount := s.errorCount + 1 }
  else { s with errorCount := s.errorCount + 1 }

/-- A `PState` as right after connecting, with a firmware selected and the
confirmation dialog accepted. -/
def readyProg : PState :=
  { transport := true, port := true, portReadable := true, esploader := false,
    butProgramDisabled := false, firmwareSelected := true, confirmOk := true,
    errorCount := 0, trace := [] }

example : (clickProgram [1, 2] .failFetch readyProg).transport = false := by decide

example : (clickProgram [1, 2] .success readyProg).trace =
    [.mainOp, .eraseOp, .fetchOp,
     .writeOp (flashOptions (arrayBufferToBinaryString [1, 2]))] := by decide

/-! ### Well-formed control-sequence interleavings (for the cleaning claims)

A candidate line made of printable text interleaved with complete control
sequences: CSI sequences, and OSC title sequences terminated by BEL or by
ESC-backslash.  Printable text is anything outside the stripped control
ranges; OSC bodies additionally exclude the terminator characters and the
JS line terminators (a lazy `.` match cannot cross those). -/

/-- A printable character: not in the control ranges the cleaner strips
(so in particular not ESC, BEL, CR or LF). -/
def plainChar (c : Char) : Bool :=
  decide (0x20 ≤ c.toNat) && !(decide (0x7F ≤ c.toNat) && decide (c.toNat ≤ 0x9F))

/-- A character allowed in an OSC title body: printable, not a backslash,
not U+2028/U+2029. -/
def bodyChar (c : Char) : Bool :=
  plainChar c && c != '\\' && c.toNat != 0x2028 && c.toNat != 0x2029

/-- One token of a candidate line: printable text, a CSI sequence, an OSC
title sequence ended by BEL, or one ended by ESC-backslash. -/
inductive CleanTok
| text (s : List Char)
| csiSeq (params : List Char) (final : Char)
| oscBel (body : List Char)
| oscBsl (body : List Char)
deriving DecidableEq

/-- The characters of a token. -/
def renderTok : CleanTok → List Char
| .text s => s
| .csiSeq p f => escChar :: '[' :: (p ++ [f])
| .oscBel b => escChar :: ']' :: '0' :: ';' :: (b ++ [belChar])
| .oscBsl b => escChar :: ']' :: '0' :: ';' :: (b ++ [escChar, '\\'])

/-- The characters of a token list. -/
def renderToks (ts : List CleanTok) : List Char := (ts.map renderTok).flatten

/-- Well-formedness of one token. -/
def tokOK : CleanTok → Bool
| .text s => s.all plainChar
| .csiSeq p f => p.all isCsiParam && isCsiFinal f
| .oscBel b => b.all bodyChar
| .oscBsl b => b.all bodyChar

/-- Is this token a BEL-terminated OSC sequence? -/
def isOscBelTok : CleanTok → Bool
| .oscBel _ => true
| _ => false

/-- Is this token an ESC-backslash-terminated OSC sequence? -/
def isOscBslTok : CleanTok → Bool
| .oscBsl _ => true
| _ => false

/-- No BEL-terminated OSC sequence occurs anywhere after an
ESC-backslash-terminated one. -/
def noBelAfterBsl : List CleanTok → Bool
| [] => true
| t :: rest =>
  ((!isOscBslTok t) || rest.all (fun u => !isOscBelTok u)) && noBelAfterBsl rest

/-- The printable text of a token (what cleaning should keep). -/
def textContent : CleanTok → List Char
| .text s => s
| _ => []

/-- A token's characters after the CSI pass removes the CSI sequences. -/
def renderTokNoCsi : CleanTok → List Char
| .csiSeq _ _ => []
| t => renderTok t

/-- A token's characters after the CSI pass and the BEL-terminated OSC
pass have removed their sequences. -/
def renderTokNoBel : CleanTok → List Char
| .csiSeq _ _ => []
| .oscBel _ => []
| t => renderTok t

/-- How the line split of `r ++ b` relates to the split of `b` when `r`
holds no newline: `r` is prefixed to the first line of `b`, or to the
remainder when `b` has no complete line. -/
def prependRem (r : List Char) (q : List (List Char) × List Char) :
    List (List Char) × List Char :=
  match q.1 with
  | [] => ([], r ++ q.2)
  | l :: ls => ((r ++ l) :: ls, q.2)

/-! ## Supporting lemmas -/

theorem foldl_append_char (bytes : List Nat) (acc : List Char) :
    bytes.foldl (fun a b => a ++ [Char.ofNat b]) acc = acc ++ bytes.map Char.ofNat := by
  induction bytes generalizing acc with
  | nil => simp
  | cons b rest ih => simp [List.foldl_cons, ih]

theorem toNat_ofNat_lt {b : Nat} (h : b < 256) : (Char.ofNat b).toNat = b := by
  rw [Char.ofNat, dif_pos (Or.inl (Nat.lt_trans h (by norm_num)))]
  rfl

/-! ## Claim theorems -/

/-- Claim C8: feeding the chunks `"\x1B[2Khello\n"`, `"wor"`, `"ld\x07\n"`
through the read loop emits exactly the two display lines `"hello"` and
`"world"` (the bare BEL is removed by the control-byte pass, there being
no OSC opener), and leaves an empty buffer. -/
theorem chunks_hello_world :
    processChunks
      [['\x1B', '[', '2', 'K', 'h', 'e', 'l', 'l', 'o', '\n'],
       ['w', 'o', 'r'],
       ['l', 'd', '\x07', '\n']] =
    ([['h', 'e', 'l', 'l', 'o'], ['w', 'o', 'r', 'l', 'd']], []) := by
  decide

/-- Claim C6: a candidate line whose cleaned form is empty produces no
display entry, and the `"\r\n"`-only input produces one suppressed
(empty) candidate and hence no display entry and an empty buffer. -/
theorem empty_cleaned_line_suppressed :
    (∀ l : List Char, cleanSerialOutput l = [] → emitLine l = none) ∧
    processChunks [['\r', '\n']] = ([], []) ∧
    (splitLines ['\r', '\n']).1 = [['\r']] := by
  refine ⟨fun l h => ?_, by decide, by decide⟩
  simp [emitLine, h]

/-- Witness for C6 at a line holding only control sequences: a CSI erase
sequence followed by a BEL cleans to nothing, so no display entry. -/
theorem empty_cleaned_line_suppressed_witness :
    emitLine ['\x1B', '[', '2', 'K', '\x07'] = none :=
  empty_cleaned_line_suppressed.1 _ (by decide)

/-- Claim C2: whatever the outcome of the programming operation (success
or a rejection at bootloader entry, erase, fetch or write), afterwards the
transport is disconnected, the port is closed if it was still open, and
the program button is re-enabled: the `finally` cleanup is unconditional. -/
theorem program_cleanup_unconditional (fw : List Nat) (o : ProgOutcome) (s : PState)
    (ht : s.transport = true) (hf : s.firmwareSelected = true) (hc : s.confirmOk = true) :
    (clickProgram fw o s).transport = false ∧
    (clickProgram fw o s).butProgramDisabled = false ∧
    (s.port = true → s.portReadable = true →
      (clickProgram fw o s).port = false ∧ (clickProgram fw o s).portReadable = false) := by
  obtain ⟨t, p, pr, e, bd, fs, co, ec, tr⟩ := s
  replace ht : t = true := ht
  replace hf : fs = true := hf
  replace hc : co = true := hc
  subst ht hf hc
  refine ⟨by cases p <;> cases pr <;> simp [clickProgram],
    by cases p <;> cases pr <;> simp [clickProgram], ?_⟩
  intro hp hpr
  replace hp : p = true := hp
  replace hpr : pr = true := hpr
  subst hp hpr
  simp [clickProgram]

/-- Witness for C2: a failure during the firmware fetch still leaves the
transport disconnected, the port closed and the program button enabled. -/
theorem program_cleanup_unconditional_witness :
    (clickProgram [7] .failFetch readyProg).transport = false ∧
    (clickProgram [7] .failFetch readyProg).butProgramDisabled = false ∧
    (clickProgram [7] .failFetch readyProg).port = false ∧
    (clickProgram [7] .failFetch readyProg).portReadable = false := by
  have h := program_cleanup_unconditional [7] .failFetch readyProg (by decide) (by decide)
    (by decide)
  exact ⟨h.1, h.2.1, (h.2.2 (by decide) (by decide)).1, (h.2.2 (by decide) (by decide)).2⟩

/-- Claim C3: on a connected, confirmed run the programming sequence
performs bootloader entry, then erase, then fetch, then a single write,
in that order, and for every firmware the write options are
`flashSize = "keep"`, `eraseAll = false`, `compress = true`, one file at
address offset 0. -/
theorem program_sequence_order (fw : List Nat) (s : PState)
    (ht : s.transport = true) (hf : s.firmwareSelected = true) (hc : s.confirmOk = true) :
    (clickProgram fw .success s).trace =
      s.trace ++ [.mainOp, .eraseOp, .fetchOp,
        .writeOp (flashOptions (arrayBufferToBinaryString fw))] ∧
    (flashOptions (arrayBufferToBinaryString fw)).flashSize = "keep" ∧
    (flashOptions (arrayBufferToBinaryString fw)).eraseAll = false ∧
    (flashOptions (arrayBufferToBinaryString fw)).compress = true ∧
    (flashOptions (arrayBufferToBinaryString fw)).fileArray =
      [{ data := arrayBufferToBinaryString fw, address := 0 }] := by
  refine ⟨?_, rfl, rfl, rfl, rfl⟩
  simp only [clickProgram, ht, hf, hc, if_true, progSteps]
  split <;> rfl

/-- Witness for C3 on a two-byte firmware from the ready state. -/
theorem program_sequence_order_witness :
    (clickProgram [1, 2] .success readyProg).trace =
      [.mainOp, .eraseOp, .fetchOp,
       .writeOp (flashOptions (arrayBufferToBinaryString [1, 2]))] :=
  (program_sequence_order [1, 2] readyProg (by decide) (by decide) (by decide)).1

/-- Claim C10: `arrayBufferToBinaryString` returns a string of the same
length as the byte buffer whose character code at each index is the byte
at that index; every character code is below 256. -/
theorem arrayBufferToBinaryString_spec (bytes : List Nat) (h : ∀ b ∈ bytes, b < 256) :
    (arrayBufferToBinaryString bytes).length = bytes.length ∧
    (arrayBufferToBinaryString bytes).map Char.toNat = bytes ∧
    ∀ c ∈ arrayBufferToBinaryString bytes, c.toNat < 256 := by
  have habs : arrayBufferToBinaryString bytes = bytes.map Char.ofNat :=
    foldl_append_char bytes []
  have hmap : (bytes.map Char.ofNat).map Char.toNat = bytes := by
    rw [List.map_map]
    have : ∀ b ∈ bytes, (Char.toNat ∘ Char.ofNat) b = id b := by
      intro b hb
      simpa using toNat_ofNat_lt (h b hb)
    rw [List.map_congr_left this, List.map_id]
  refine ⟨by simp [habs], by rw [habs, hmap], ?_⟩
  intro c hc
  rw [habs] at hc
  obtain ⟨b, hb, rfl⟩ := List.mem_map.1 hc
  rw [toNat_ofNat_lt (h b hb)]
  exact h b hb

/-- Witness for C10 on the buffer `[72, 105]` (`"Hi"`). -/
theorem arrayBufferToBinaryString_spec_witness :
    (arrayBufferToBinaryString [72, 105]).length = 2 ∧
    (arrayBufferToBinaryString [72, 105]).map Char.toNat = [72, 105] := by
  have h := arrayBufferToBinaryString_spec [72, 105] (by decide)
  exact ⟨h.1, h.2.1⟩

/-! ### Line splitting lemmas (for chunk-boundary independence) -/

theorem splitLines_append (a b : List Char) :
    splitLines (a ++ b) =
      ((splitLines a).1 ++ (prependRem (splitLines a).2 (splitLines b)).1,
       (prependRem (splitLines a).2 (splitLines b)).2) := by
  induction a with
  | nil =>
    rcases hsb : splitLines b with ⟨ls, r⟩
    cases ls <;> simp [splitLines, prependRem, hsb]
  | cons c a ih =>
    by_cases hc : c = '\n' <;>
      cases hA : (splitLines a).1 <;> cases hb : (splitLines b).1 <;>
        simp [splitLines, hc, ih, prependRem, hA, hb]

theorem splitLines_rem_no_newline (s : List Char) : '\n' ∉ (splitLines s).2 := by
  induction s with
  | nil => simp [splitLines]
  | cons c rest ih =>
    by_cases hc : c = '\n'
    · simp [splitLines, hc, ih]
    · cases hA : (splitLines rest).1 <;>
        simp [splitLines, hc, hA, ih, Ne.symm hc]

theorem splitLines_no_newline (s : List Char) (h : '\n' ∉ s) : splitLines s = ([], s) := by
  induction s with
  | nil => simp [splitLines]
  | cons c rest ih =>
    rw [List.mem_cons, not_or] at h
    have hc : ¬c = '\n' := fun hh => h.1 hh.symm
    simp [splitLines, ih h.2, hc]

theorem feedChunks_eq (cs : List (List Char)) (buf : List Char) (h : '\n' ∉ buf) :
    feedChunks buf cs = splitLines (buf ++ cs.flatten) := by
  induction cs generalizing buf with
  | nil => simp [feedChunks, splitLines_no_newline buf h]
  | cons ch rest ih =>
    rw [show buf ++ (ch :: rest).flatten = (buf ++ ch) ++ rest.flatten by simp,
      splitLines_append (buf ++ ch) rest.flatten]
    rw [feedChunks, ih _ (splitLines_rem_no_newline (buf ++ ch))]
    rw [splitLines_append ((splitLines (buf ++ ch)).2) rest.flatten,
      splitLines_no_newline _ (splitLines_rem_no_newline (buf ++ ch))]
    simp

/-- The buffer-and-split loop itself is chunk-boundary independent at the
decoded-text level: its emitted lines and final buffer depend only on the
concatenation of the decoded chunk texts. -/
theorem processChunks_eq_of_flatten_eq (cs1 cs2 : List (List Char))
    (h : cs1.flatten = cs2.flatten) : processChunks cs1 = processChunks cs2 := by
  unfold processChunks
  rw [feedChunks_eq cs1 [] (by simp), feedChunks_eq cs2 [] (by simp), h]

/-! ### Character-class lemmas for the cleaner's output -/

theorem mem_crlfToLf {s : List Char} {c : Char} (h : c ∈ crlfToLf s) : c ∈ s := by
  induction s using crlfToLf.induct with
  | case1 => simp [crlfToLf] at h
  | case2 d => simpa [crlfToLf] using h
  | case3 d e rest hde ih =>
    rw [crlfToLf, if_pos hde] at h
    rcases List.mem_cons.1 h with h1 | h1
    · simp [hde.2, h1]
    · simp [List.mem_cons.2 (Or.inr (List.mem_cons.2 (Or.inr (ih h1))))]
  | case4 d e rest hde ih =>
    rw [crlfToLf, if_neg hde] at h
    rcases List.mem_cons.1 h with h1 | h1
    · simp [h1]
    · simp [ih h1]

theorem crlfToLf_no_cr {s : List Char} (h : '\r' ∉ s) : crlfToLf s = s := by
  induction s using crlfToLf.induct with
  | case1 => rfl
  | case2 d => rfl
  | case3 d e rest hde ih =>
    exact absurd (by simp [hde.1]) h
  | case4 d e rest hde ih =>
    rw [List.mem_cons, not_or] at h
    rw [crlfToLf, if_neg hde, ih (fun hm => h.2 hm)]

theorem dropCr_id {s : List Char} (h : '\r' ∉ s) : dropCr s = s := by
  rw [dropCr, List.filter_eq_self]
  intro c hc
  have hne : c ≠ '\r' := fun he => h (he ▸ hc)
  simpa using hne

theorem stripCtl_id {s : List Char} (h : ∀ c ∈ s, isStrippedCtl c = false) :
    stripCtl s = s := by
  rw [stripCtl, List.filter_eq_self]
  intro c hc
  simp [h c hc]

theorem csiExec_no_esc {s : List Char} (h : ∀ c ∈ s, c ≠ escChar) :
    csiExec .norm s = (s, .norm) := by
  induction s with
  | nil => rfl
  | cons c rest ih =>
    have hc : ¬c = escChar := h c (by simp)
    simp [csiExec, csiStep, hc, ih (fun d hd => h d (by simp [hd]))]

theorem stripCsi_no_esc {s : List Char} (h : ∀ c ∈ s, c ≠ escChar) :
    stripCsi s = s := by
  rw [stripCsi, csiExec_no_esc h]
  simp [csiPend]

theorem oscExec_no_esc (isTerm : Char → Bool) {s : List Char}
    (h : ∀ c ∈ s, c ≠ escChar) : oscExec isTerm .norm s = (s, .norm) := by
  induction s with
  | nil => rfl
  | cons c rest ih =>
    have hc : ¬c = escChar := h c (by simp)
    simp [oscExec, oscStep, hc, ih (fun d hd => h d (by simp [hd]))]

theorem stripOsc_no_esc (isTerm : Char → Bool) {s : List Char}
    (h : ∀ c ∈ s, c ≠ escChar) : stripOsc isTerm s = s := by
  rw [stripOsc, oscExec_no_esc isTerm h]
  simp [oscPend]

/-- Every character of the cleaner's output escapes the control-byte pass
and the carriage-return passes. -/
theorem cleanSerialOutput_chars (s : List Char) :
    ∀ c ∈ cleanSerialOutput s, isStrippedCtl c = false ∧ c ≠ '\r' := by
  intro c hc
  rw [cleanSerialOutput, dropCr] at hc
  have h1 := List.mem_filter.1 hc
  have h2 := mem_crlfToLf h1.1
  have h3 := List.mem_filter.1 h2
  refine ⟨by simpa using h3.2, by simpa using h1.2⟩

/-- The cleaner is the identity on strings free of stripped control
characters (in particular of ESC and CR). -/
theorem cleanSerialOutput_id {s : List Char}
    (h : ∀ c ∈ s, isStrippedCtl c = false) : cleanSerialOutput s = s := by
  have hesc : ∀ c ∈ s, c ≠ escChar := by
    intro c hc he
    subst he
    exact absurd (h _ hc) (by decide)
  have hcr : '\r' ∉ s := by
    intro hm
    exact absurd (h _ hm) (by decide)
  rw [cleanSerialOutput, stripCsi_no_esc hesc, stripOsc_no_esc _ hesc,
    stripOsc_no_esc _ hesc, stripOsc_no_esc _ hesc, stripCtl_id h,
    crlfToLf_no_cr hcr, dropCr_id hcr]

/-- Claim C5: `cleanSerialOutput` is idempotent. -/
theorem cleanSerialOutput_idempotent (s : List Char) :
    cleanSerialOutput (cleanSerialOutput s) = cleanSerialOutput s :=
  cleanSerialOutput_id (fun c hc => (cleanSerialOutput_chars s c hc).1)

/-- Claim C9: the cleaner's output holds no carriage return and no
character in 0x00-0x09, 0x0B-0x1F or 0x7F-0x9F; any control character
left is the line feed 0x0A. -/
theorem cleanSerialOutput_output_ranges (s : List Char) (c : Char)
    (hc : c ∈ cleanSerialOutput s) :
    c ≠ '\r' ∧ ¬(c.toNat ≤ 0x09) ∧ ¬(0x0B ≤ c.toNat ∧ c.toNat ≤ 0x1F) ∧
    ¬(0x7F ≤ c.toNat ∧ c.toNat ≤ 0x9F) ∧
    (c.toNat < 0x20 → c.toNat = 0x0A) := by
  have h := cleanSerialOutput_chars s c hc
  have h1 := h.1
  simp only [isStrippedCtl, Bool.or_eq_false_iff, Bool.and_eq_false_iff,
    decide_eq_false_iff_not, not_le] at h1
  refine ⟨h.2, ?_, ?_, ?_, ?_⟩ <;> omega

/-- Witness for C9: the line feed kept by cleaning `"a\r\nb"` satisfies
the range exclusions. -/
theorem cleanSerialOutput_output_ranges_witness :
    ('\n' ≠ '\r' ∧ ¬('\n'.toNat ≤ 0x09) ∧
      ¬(0x0B ≤ '\n'.toNat ∧ '\n'.toNat ≤ 0x1F) ∧
      ¬(0x7F ≤ '\n'.toNat ∧ '\n'.toNat ≤ 0x9F) ∧
      ('\n'.toNat < 0x20 → '\n'.toNat = 0x0A)) :=
  cleanSerialOutput_output_ranges ['a', '\r', '\n', 'b'] '\n' (by decide)

/-! ### Monitoring session lemmas -/

theorem feedText_isMonitoring (s : MState) (t : List Char) :
    (feedText s t).isMonitoring = s.isMonitoring := rfl

theorem foldl_feedText_state (cs : List (List Char)) (s : MState) :
    (cs.foldl feedText s).isMonitoring = s.isMonitoring ∧
    (cs.foldl feedText s).transport = s.transport ∧
    (cs.foldl feedText s).port = s.port ∧
    (cs.foldl feedText s).uiConnected = s.uiConnected ∧
    (cs.foldl feedText s).reader = s.reader ∧
    (cs.foldl feedText s).portOpen = s.portOpen := by
  induction cs generalizing s with
  | nil => exact ⟨rfl, rfl, rfl, rfl, rfl, rfl⟩
  | cons c rest ih => simpa [List.foldl_cons, feedText] using ih (feedText s c)

theorem monitorLoop_chunks_fail (cs : List (List Char)) (s : MState)
    (hm : s.isMonitoring = true) :
    monitorLoop s (cs.map ReadEvent.chunk ++ [ReadEvent.fail true]) =
      (logMsg .deviceLostNotice (cs.foldl feedText s), false) := by
  induction cs generalizing s with
  | nil => simp [monitorLoop, hm]
  | cons c rest ih =>
    rw [List.map_cons, List.cons_append, monitorLoop]
    simp only [hm, if_true]
    exact ih (feedText s c) hm

theorem stopMonitoring_fields (s : MState) :
    (stopMonitoring s).isMonitoring = false ∧ (stopMonitoring s).port = false ∧
    (stopMonitoring s).uiConnected = false ∧ (stopMonitoring s).transport = s.transport ∧
    (stopMonitoring s).logs = s.logs ++ [LogMsg.terminalStopped] := by
  obtain ⟨tr, po, pod, dev, rd, mon, ui, buf, lg⟩ := s
  cases rd <;> cases po <;> cases pod <;> simp [stopMonitoring, logMsg]

/-- Claim C1, counterexample to "returns to the Connected state": after a
"device lost" read error the page is NOT in the Connected state — the
teardown nulls the port and switches the UI to disconnected (only the
stale transport reference survives). -/
theorem device_lost_not_connected :
    inConnectedState (clickTerminal [ReadEvent.fail true] connectedInit) = false ∧
    (clickTerminal [ReadEvent.fail true] connectedInit).port = false ∧
    (clickTerminal [ReadEvent.fail true] connectedInit).uiConnected = false ∧
    (clickTerminal [ReadEvent.fail true] connectedInit).transport = true := by
  decide

/-- Claim C1 as amended: on a "device lost" read error after any chunks,
the loop ends without rethrowing and a user-facing notice is logged;
monitoring stops through the standard teardown, which closes and clears
the port and sets the UI to the disconnected state, while the stale
transport reference stays set (so the system does not remain in the
spec's Connected state). -/
theorem device_lost_teardown (chunks : List (List Char)) :
    (monitorLoop (termSetup connectedInit)
        (chunks.map ReadEvent.chunk ++ [ReadEvent.fail true])).2 = false ∧
    LogMsg.deviceLostNotice ∈
      (clickTerminal (chunks.map ReadEvent.chunk ++ [ReadEvent.fail true])
        connectedInit).logs ∧
    (clickTerminal (chunks.map ReadEvent.chunk ++ [ReadEvent.fail true])
        connectedInit).isMonitoring = false ∧
    (clickTerminal (chunks.map ReadEvent.chunk ++ [ReadEvent.fail true])
        connectedInit).transport = true ∧
    (clickTerminal (chunks.map ReadEvent.chunk ++ [ReadEvent.fail true])
        connectedInit).port = false ∧
    (clickTerminal (chunks.map ReadEvent.chunk ++ [ReadEvent.fail true])
        connectedInit).uiConnected = false := by
  have hsetup : (termSetup connectedInit).isMonitoring = true := rfl
  have hloop := monitorLoop_chunks_fail chunks (termSetup connectedInit) hsetup
  have hfold := foldl_feedText_state chunks (termSetup connectedInit)
  have hmon : (logMsg LogMsg.deviceLostNotice
      (chunks.foldl feedText (termSetup connectedInit))).isMonitoring = true := by
    show (chunks.foldl feedText (termSetup connectedInit)).isMonitoring = true
    rw [hfold.1, hsetup]
  have hrun : clickTerminal (chunks.map ReadEvent.chunk ++ [ReadEvent.fail true])
      connectedInit =
      stopMonitoring (logMsg .deviceLostNotice
        (chunks.foldl feedText (termSetup connectedInit))) := by
    rw [clickTerminal, if_neg (by decide : ¬(connectedInit.isMonitoring = true)),
      if_pos (by decide : connectedInit.port = true)]
    simp only [hloop, Bool.false_eq_true, if_false]
    rw [if_pos hmon]
  have hstop := stopMonitoring_fields (logMsg .deviceLostNotice
    (chunks.foldl feedText (termSetup connectedInit)))
  refine ⟨by rw [hloop], ?_, ?_, ?_, ?_, ?_⟩
  · rw [hrun, hstop.2.2.2.2]
    simp [logMsg]
  · rw [hrun]; exact hstop.1
  · rw [hrun, hstop.2.2.2.1]
    show (logMsg .deviceLostNotice _).transport = true
    simp only [logMsg]
    rw [hfold.2.1]
    rfl
  · rw [hrun]; exact hstop.2.1
  · rw [hrun]; exact hstop.2.2.1

/-! ### Character-class facts for well-formed sequences -/

theorem plainChar_nat {c : Char} (h : plainChar c = true) :
    32 ≤ c.toNat ∧ ¬(127 ≤ c.toNat ∧ c.toNat ≤ 159) := by
  simp only [plainChar, Bool.and_eq_true, decide_eq_true_eq, Bool.not_eq_true',
    Bool.and_eq_false_iff, decide_eq_false_iff_not, not_le] at h
  exact ⟨h.1, by rcases h.2 with h2 | h2 <;> omega⟩

theorem plainChar_ne_esc {c : Char} (h : plainChar c = true) : c ≠ escChar := by
  intro he
  have h32 := (plainChar_nat h).1
  subst he
  have he27 : escChar.toNat = 27 := rfl
  omega

theorem plainChar_not_bel {c : Char} (h : plainChar c = true) : isBel c = false := by
  rw [isBel, beq_eq_false_iff_ne]
  intro he
  have h32 := (plainChar_nat h).1
  subst he
  have hb7 : belChar.toNat = 7 := rfl
  omega

theorem plainChar_not_stripped {c : Char} (h : plainChar c = true) :
    isStrippedCtl c = false := by
  have hn := plainChar_nat h
  simp only [isStrippedCtl, Bool.or_eq_false_iff, Bool.and_eq_false_iff,
    decide_eq_false_iff_not, not_le]
  omega

theorem bodyChar_split {c : Char} (h : bodyChar c = true) :
    plainChar c = true ∧ c ≠ '\\' ∧ c.toNat ≠ 0x2028 ∧ c.toNat ≠ 0x2029 := by
  simp only [bodyChar, Bool.and_eq_true, bne_iff_ne, ne_eq] at h
  exact ⟨h.1.1.1, h.1.1.2, h.1.2, h.2⟩

theorem isLineTerm_eq_false {c : Char} (h10 : c.toNat ≠ 10) (h13 : c.toNat ≠ 13)
    (h28 : c.toNat ≠ 0x2028) (h29 : c.toNat ≠ 0x2029) : isLineTerm c = false := by
  simp only [isLineTerm, Bool.or_eq_false_iff, beq_eq_false_iff_ne, ne_eq]
  refine ⟨⟨⟨fun he => ?_, fun he => ?_⟩, h28⟩, h29⟩
  · subst he
    exact h10 (by decide)
  · subst he
    exact h13 (by decide)

theorem bodyChar_not_lineTerm {c : Char} (h : bodyChar c = true) :
    isLineTerm c = false := by
  obtain ⟨hp, _, h28, h29⟩ := bodyChar_split h
  have hn := (plainChar_nat hp).1
  exact isLineTerm_eq_false (by omega) (by omega) h28 h29

theorem bodyChar_not_bsl {c : Char} (h : bodyChar c = true) : isBsl c = false := by
  rw [isBsl, beq_eq_false_iff_ne]
  exact (bodyChar_split h).2.1

theorem bodyChar_not_belOrBsl {c : Char} (h : bodyChar c = true) :
    isBelOrBsl c = false := by
  simp only [isBelOrBsl, Bool.or_eq_false_iff, beq_eq_false_iff_ne, ne_eq]
  have hbel := plainChar_not_bel (bodyChar_split h).1
  rw [isBel, beq_eq_false_iff_ne] at hbel
  exact ⟨hbel, (bodyChar_split h).2.1⟩

/-! ### Scanner composition lemmas -/

theorem csiExec_append (a b : List Char) (st : CsiSt) :
    csiExec st (a ++ b) =
      ((csiExec st a).1 ++ (csiExec (csiExec st a).2 b).1,
       (csiExec (csiExec st a).2 b).2) := by
  induction a generalizing st with
  | nil => simp [csiExec]
  | cons c rest ih => simp [csiExec, ih]

theorem oscExec_append (isTerm : Char → Bool) (a b : List Char) (st : OscSt) :
    oscExec isTerm st (a ++ b) =
      ((oscExec isTerm st a).1 ++ (oscExec isTerm (oscExec isTerm st a).2 b).1,
       (oscExec isTerm (oscExec isTerm st a).2 b).2) := by
  induction a generalizing st with
  | nil => simp [oscExec]
  | cons c rest ih => simp [oscExec, ih]

/-! ### The CSI pass on well-formed tokens -/

theorem csiExec_params (p : List Char) (f : Char) (seen : List Char)
    (hp : ∀ c ∈ p, isCsiParam c = true) (hf : isCsiFinal f = true) :
    csiExec (.par seen) (p ++ [f]) = ([], .norm) := by
  induction p generalizing seen with
  | nil =>
    have hpf : isCsiParam f = false := by
      simp only [isCsiFinal, Bool.or_eq_true, Bool.and_eq_true, decide_eq_true_eq] at hf
      simp only [isCsiParam, Bool.or_eq_false_iff, Bool.and_eq_false_iff,
        decide_eq_false_iff_not, not_le]
      omega
    simp [csiExec, csiStep, hpf, hf]
  | cons c rest ih =>
    have hc := hp c (by simp)
    simp only [List.cons_append, csiExec, csiStep, hc, if_true]
    simpa using ih (seen ++ [c]) (fun d hd => hp d (by simp [hd]))

theorem csiExec_tok (t : CleanTok) (h : tokOK t = true) :
    csiExec .norm (renderTok t) = (renderTokNoCsi t, .norm) := by
  cases t with
  | text s =>
    simp only [tokOK, List.all_eq_true] at h
    exact csiExec_no_esc fun c hc => plainChar_ne_esc (h c hc)
  | csiSeq p f =>
    simp only [tokOK, Bool.and_eq_true, List.all_eq_true] at h
    show csiExec .norm (escChar :: '[' :: (p ++ [f])) = ([], .norm)
    rw [show escChar :: '[' :: (p ++ [f]) = [escChar, '['] ++ (p ++ [f]) from rfl,
      csiExec_append,
      (by decide : csiExec CsiSt.norm [escChar, '['] = ([], CsiSt.par [])),
      csiExec_params p f [] h.1 h.2]
    rfl
  | oscBel b =>
    simp only [tokOK, List.all_eq_true] at h
    have h3 : csiExec .norm ('0' :: ';' :: (b ++ [belChar])) =
        ('0' :: ';' :: (b ++ [belChar]), .norm) := by
      refine csiExec_no_esc ?_
      intro c hc
      simp only [List.mem_cons, List.mem_append, List.not_mem_nil, or_false] at hc
      rcases hc with rfl | rfl | hc | rfl
      · decide
      · decide
      · exact plainChar_ne_esc (bodyChar_split (h c hc)).1
      · decide
    show csiExec .norm (escChar :: ']' :: '0' :: ';' :: (b ++ [belChar])) =
      (escChar :: ']' :: '0' :: ';' :: (b ++ [belChar]), .norm)
    rw [show escChar :: ']' :: '0' :: ';' :: (b ++ [belChar]) =
        [escChar, ']'] ++ ('0' :: ';' :: (b ++ [belChar])) from rfl,
      csiExec_append,
      (by decide : csiExec CsiSt.norm [escChar, ']'] = ([escChar, ']'], CsiSt.norm)),
      h3]
  | oscBsl b =>
    simp only [tokOK, List.all_eq_true] at h
    have h3 : csiExec .norm ('0' :: ';' :: b) = ('0' :: ';' :: b, .norm) := by
      refine csiExec_no_esc ?_
      intro c hc
      simp only [List.mem_cons] at hc
      rcases hc with rfl | rfl | hc
      · decide
      · decide
      · exact plainChar_ne_esc (bodyChar_split (h c hc)).1
    have h5 : csiExec .norm (('0' :: ';' :: b) ++ [escChar, '\\']) =
        (('0' :: ';' :: b) ++ [escChar, '\\'], .norm) := by
      rw [csiExec_append, h3,
        (by decide : csiExec CsiSt.norm [escChar, '\\'] = ([escChar, '\\'], CsiSt.norm))]
    show csiExec .norm (escChar :: ']' :: '0' :: ';' :: (b ++ [escChar, '\\'])) =
      (escChar :: ']' :: '0' :: ';' :: (b ++ [escChar, '\\']), .norm)
    rw [show escChar :: ']' :: '0' :: ';' :: (b ++ [escChar, '\\']) =
        [escChar, ']'] ++ (('0' :: ';' :: b) ++ [escChar, '\\']) from rfl,
      csiExec_append,
      (by decide : csiExec CsiSt.norm [escChar, ']'] = ([escChar, ']'], CsiSt.norm)),
      h5]

theorem csiExec_toks (ts : List CleanTok) (h : ∀ t ∈ ts, tokOK t = true) :
    csiExec .norm (renderToks ts) = ((ts.map renderTokNoCsi).flatten, .norm) := by
  induction ts with
  | nil => simp [renderToks, csiExec]
  | cons t rest ih =>
    rw [renderToks, List.map_cons, List.flatten_cons, csiExec_append,
      csiExec_tok t (h t (by simp))]
    have ihr := ih (fun u hu => h u (by simp [hu]))
    rw [renderToks] at ihr
    simp [ihr]

theorem stripCsi_toks (ts : List CleanTok) (h : ∀ t ∈ ts, tokOK t = true) :
    stripCsi (renderToks ts) = (ts.map renderTokNoCsi).flatten := by
  rw [stripCsi, csiExec_toks ts h]
  simp [csiPend]

/-! ### The OSC passes on well-formed tokens -/

theorem oscExec_body (isTerm : Char → Bool) (b : List Char) :
    ∀ (seen : List Char), (∀ c ∈ b, isTerm c = false ∧ isLineTerm c = false) →
      oscExec isTerm (.body seen) b = ([], .body (seen ++ b)) := by
  induction b with
  | nil => intro seen h; simp [oscExec]
  | cons c rest ih =>
    intro seen h
    have hc := h c (by simp)
    simp only [oscExec, oscStep, hc.1, hc.2, Bool.false_eq_true, if_false]
    rw [ih (seen ++ [c]) (fun d hd => h d (by simp [hd]))]
    simp

theorem oscExec_opener (isTerm : Char → Bool) :
    oscExec isTerm .norm [escChar, ']', '0', ';'] = ([], .body []) := by
  simp [oscExec, oscStep]

theorem oscExec_oscBel (isTerm : Char → Bool) (b : List Char)
    (hb : ∀ c ∈ b, isTerm c = false ∧ isLineTerm c = false)
    (hbel : isTerm belChar = true) :
    oscExec isTerm .norm (renderTok (.oscBel b)) = ([], .norm) := by
  show oscExec isTerm .norm (escChar :: ']' :: '0' :: ';' :: (b ++ [belChar])) = ([], .norm)
  rw [show escChar :: ']' :: '0' :: ';' :: (b ++ [belChar]) =
      [escChar, ']', '0', ';'] ++ (b ++ [belChar]) from rfl,
    oscExec_append, oscExec_opener]
  rw [oscExec_append isTerm b [belChar], oscExec_body isTerm b [] hb]
  simp [oscExec, oscStep, hbel]

theorem oscExec_oscBsl (isTerm : Char → Bool) (b : List Char)
    (hb : ∀ c ∈ b, isTerm c = false ∧ isLineTerm c = false)
    (hesc : isTerm escChar = false) (hbsl : isTerm '\\' = true) :
    oscExec isTerm .norm (renderTok (.oscBsl b)) = ([], .norm) := by
  show oscExec isTerm .norm (escChar :: ']' :: '0' :: ';' :: (b ++ [escChar, '\\'])) =
    ([], .norm)
  rw [show escChar :: ']' :: '0' :: ';' :: (b ++ [escChar, '\\']) =
      [escChar, ']', '0', ';'] ++ ((b ++ [escChar]) ++ ['\\']) from by simp,
    oscExec_append, oscExec_opener]
  have hb2 : ∀ c ∈ b ++ [escChar], isTerm c = false ∧ isLineTerm c = false := by
    intro c hcm
    rcases List.mem_append.1 hcm with hcm | hcm
    · exact hb c hcm
    · rw [List.mem_singleton.1 hcm]
      exact ⟨hesc, by decide⟩
  rw [oscExec_append isTerm (b ++ [escChar]) ['\\'],
    oscExec_body isTerm (b ++ [escChar]) [] hb2]
  simp [oscExec, oscStep, hbsl]

theorem oscRun_no_term (isTerm : Char → Bool) :
    ∀ (s : List Char), (∀ c ∈ s, isTerm c = false) → ∀ (st : OscSt),
      (oscExec isTerm st s).1 ++ oscPend (oscExec isTerm st s).2 = oscPend st ++ s := by
  intro s
  induction s with
  | nil => intro h st; simp [oscExec]
  | cons c rest ih =>
    intro h st
    have hc : isTerm c = false := h c (by simp)
    have hr : ∀ d ∈ rest, isTerm d = false := fun d hd => h d (by simp [hd])
    cases st with
    | norm =>
      by_cases he : c = escChar
      · subst he
        simp [oscExec, oscStep, ih hr .esc]
        all_goals simp [oscPend]
      · simp [oscExec, oscStep, he, ih hr .norm]
        all_goals simp [oscPend]
    | esc =>
      by_cases h1 : c = ']'
      · subst h1
        simp [oscExec, oscStep, ih hr .brk]
        all_goals simp [oscPend]
      · by_cases he : c = escChar
        · subst he
          simp [oscExec, oscStep, (by decide : ¬(escChar = ']')), ih hr .esc]
          all_goals simp [oscPend]
        · simp [oscExec, oscStep, h1, he, ih hr .norm]
          all_goals simp [oscPend]
    | brk =>
      by_cases h1 : c = '0'
      · subst h1
        simp [oscExec, oscStep, ih hr .zero]
        all_goals simp [oscPend]
      · by_cases he : c = escChar
        · subst he
          simp [oscExec, oscStep, (by decide : ¬(escChar = '0')), ih hr .esc]
          all_goals simp [oscPend]
        · simp [oscExec, oscStep, h1, he, ih hr .norm]
          all_goals simp [oscPend]
    | zero =>
      by_cases h1 : c = ';'
      · subst h1
        simp [oscExec, oscStep, ih hr (.body [])]
        all_goals simp [oscPend]
      · by_cases he : c = escChar
        · subst he
          simp [oscExec, oscStep, (by decide : ¬(escChar = ';')), ih hr .esc]
          all_goals simp [oscPend]
        · simp [oscExec, oscStep, h1, he, ih hr .norm]
          all_goals simp [oscPend]
    | body seen =>
      by_cases hl : isLineTerm c = true
      · simp [oscExec, oscStep, hc, hl, ih hr .norm]
        all_goals simp [oscPend]
      · rw [Bool.not_eq_true] at hl
        simp [oscExec, oscStep, hc, hl, ih hr (.body (seen ++ [c]))]
        all_goals simp [oscPend]

theorem noBelAfterBsl_decomp : ∀ (ts : List CleanTok), noBelAfterBsl ts = true →
    ∃ A B, ts = A ++ B ∧ (∀ t ∈ A, isOscBslTok t = false) ∧
      ∀ t ∈ B, isOscBelTok t = false := by
  intro ts
  induction ts with
  | nil => exact fun _ => ⟨[], [], rfl, by simp, by simp⟩
  | cons t rest ih =>
    intro h
    simp only [noBelAfterBsl, Bool.and_eq_true, Bool.or_eq_true] at h
    by_cases hbsl : isOscBslTok t = true
    · refine ⟨[], t :: rest, rfl, by simp, ?_⟩
      have hall : rest.all (fun u => !isOscBelTok u) = true := by
        rcases h.1 with h1 | h1
        · rw [Bool.not_eq_true', hbsl] at h1
          exact absurd h1 (by decide)
        · exact h1
      rw [List.all_eq_true] at hall
      intro u hu
      rcases List.mem_cons.1 hu with rfl | hu
      · cases u <;> simp_all [isOscBslTok, isOscBelTok]
      · simpa using hall u hu
    · obtain ⟨A, B, hAB, hA, hB⟩ := ih h.2
      refine ⟨t :: A, B, by rw [hAB, List.cons_append], ?_, hB⟩
      intro u hu
      rcases List.mem_cons.1 hu with rfl | hu
      · simpa using hbsl
      · exact hA u hu

theorem oscExec_toksA (ts : List CleanTok) (hok : ∀ t ∈ ts, tokOK t = true)
    (hA : ∀ t ∈ ts, isOscBslTok t = false) :
    oscExec isBel .norm ((ts.map renderTokNoCsi).flatten) =
      ((ts.map renderTokNoBel).flatten, .norm) := by
  induction ts with
  | nil => simp [oscExec]
  | cons t rest ih =>
    rw [List.map_cons, List.flatten_cons, oscExec_append]
    have htok : oscExec isBel .norm (renderTokNoCsi t) = (renderTokNoBel t, .norm) := by
      cases t with
      | text s =>
        have hs := hok (.text s) (by simp)
        simp only [tokOK, List.all_eq_true] at hs
        exact oscExec_no_esc isBel fun c hc => plainChar_ne_esc (hs c hc)
      | csiSeq p f => simp [renderTokNoCsi, oscExec, renderTokNoBel]
      | oscBel b =>
        have hb := hok (.oscBel b) (by simp)
        simp only [tokOK, List.all_eq_true] at hb
        show oscExec isBel .norm (renderTok (.oscBel b)) = (renderTokNoBel (.oscBel b), .norm)
        rw [oscExec_oscBel isBel b
          (fun c hc => ⟨plainChar_not_bel (bodyChar_split (hb c hc)).1,
            bodyChar_not_lineTerm (hb c hc)⟩) (by decide)]
        rfl
      | oscBsl b => exact absurd (hA (.oscBsl b) (by simp)) (by simp [isOscBslTok])
    rw [htok]
    have ihr := ih (fun u hu => hok u (by simp [hu])) (fun u hu => hA u (by simp [hu]))
    simp [ihr]

theorem renderTokNoCsi_no_bel (t : CleanTok) (hok : tokOK t = true)
    (hbel : isOscBelTok t = false) : ∀ c ∈ renderTokNoCsi t, isBel c = false := by
  cases t with
  | text s =>
    simp only [tokOK, List.all_eq_true] at hok
    exact fun c hc => plainChar_not_bel (hok c hc)
  | csiSeq p f => simp [renderTokNoCsi]
  | oscBel b => simp [isOscBelTok] at hbel
  | oscBsl b =>
    simp only [tokOK, List.all_eq_true] at hok
    intro c hc
    simp only [renderTokNoCsi, renderTok, List.mem_cons, List.mem_append,
      List.not_mem_nil, or_false] at hc
    rcases hc with rfl | rfl | rfl | rfl | hc | rfl | rfl
    · decide
    · decide
    · decide
    · decide
    · exact plainChar_not_bel (bodyChar_split (hok c hc)).1
    · decide
    · decide

theorem stripOsc_bel_toks (A B : List CleanTok)
    (hok : ∀ t ∈ A ++ B, tokOK t = true)
    (hA : ∀ t ∈ A, isOscBslTok t = false)
    (hB : ∀ t ∈ B, isOscBelTok t = false) :
    stripOsc isBel (((A ++ B).map renderTokNoCsi).flatten) =
      ((A ++ B).map renderTokNoBel).flatten := by
  simp only [List.map_append, List.flatten_append]
  rw [stripOsc, oscExec_append,
    oscExec_toksA A (fun t ht => hok t (by simp [ht])) hA]
  have hnb : ∀ c ∈ ((B.map renderTokNoCsi).flatten), isBel c = false := by
    intro c hc
    rw [List.mem_flatten] at hc
    obtain ⟨l, hl, hcl⟩ := hc
    rw [List.mem_map] at hl
    obtain ⟨t, ht, rfl⟩ := hl
    exact renderTokNoCsi_no_bel t (hok t (by simp [ht])) (hB t ht) c hcl
  have hrun := oscRun_no_term isBel _ hnb .norm
  rw [show oscPend OscSt.norm = [] from rfl, List.nil_append] at hrun
  have hBeq : B.map renderTokNoCsi = B.map renderTokNoBel := by
    refine List.map_congr_left ?_
    intro t ht
    have hb := hB t ht
    cases t with
    | text s => rfl
    | csiSeq p f => rfl
    | oscBel b => simp [isOscBelTok] at hb
    | oscBsl b => rfl
  simp only [List.append_assoc]
  rw [hrun, hBeq]

theorem oscExec_bsl_toks (ts : List CleanTok) (hok : ∀ t ∈ ts, tokOK t = true) :
    oscExec isBsl .norm ((ts.map renderTokNoBel).flatten) =
      ((ts.map textContent).flatten, .norm) := by
  induction ts with
  | nil => simp [oscExec]
  | cons t rest ih =>
    rw [List.map_cons, List.flatten_cons, oscExec_append]
    have htok : oscExec isBsl .norm (renderTokNoBel t) = (textContent t, .norm) := by
      cases t with
      | text s =>
        have hs := hok (.text s) (by simp)
        simp only [tokOK, List.all_eq_true] at hs
        exact oscExec_no_esc isBsl fun c hc => plainChar_ne_esc (hs c hc)
      | csiSeq p f => simp [renderTokNoBel, oscExec, textContent]
      | oscBel b => simp [renderTokNoBel, oscExec, textContent]
      | oscBsl b =>
        have hb := hok (.oscBsl b) (by simp)
        simp only [tokOK, List.all_eq_true] at hb
        show oscExec isBsl .norm (renderTok (.oscBsl b)) = (textContent (.oscBsl b), .norm)
        rw [oscExec_oscBsl isBsl b
          (fun c hc => ⟨bodyChar_not_bsl (hb c hc), bodyChar_not_lineTerm (hb c hc)⟩)
          (by decide) (by decide)]
        rfl
    rw [htok]
    have ihr := ih (fun u hu => hok u (by simp [hu]))
    simp [ihr]

theorem stripOsc_bsl_toks (ts : List CleanTok) (hok : ∀ t ∈ ts, tokOK t = true) :
    stripOsc isBsl ((ts.map renderTokNoBel).flatten) = (ts.map textContent).flatten := by
  rw [stripOsc, oscExec_bsl_toks ts hok]
  simp [oscPend]

theorem textContent_plain (ts : List CleanTok) (hok : ∀ t ∈ ts, tokOK t = true) :
    ∀ c ∈ ((ts.map textContent).flatten), plainChar c = true := by
  intro c hc
  rw [List.mem_flatten] at hc
  obtain ⟨l, hl, hcl⟩ := hc
  rw [List.mem_map] at hl
  obtain ⟨t, ht, rfl⟩ := hl
  cases t with
  | text s =>
    have := hok _ ht
    simp only [tokOK, List.all_eq_true] at this
    exact this c hcl
  | csiSeq p f => simp [textContent] at hcl
  | oscBel b => simp [textContent] at hcl
  | oscBsl b => simp [textContent] at hcl

/-- Claim C7, counterexample to the claim as stated: on the candidate line
`ESC]0;A ESC\ x ESC]0;B BEL y` — well-formed OSC sequences with
interleaved printable text — the BEL pass's lazy match runs from the
first opener to the BEL, also deleting the printable `x`, so cleaning
does not preserve the printable text. -/
theorem clean_interleaved_counterexample :
    ([CleanTok.oscBsl ['A'], CleanTok.text ['x'], CleanTok.oscBel ['B'],
      CleanTok.text ['y']].all tokOK = true) ∧
    cleanSerialOutput (renderToks [CleanTok.oscBsl ['A'], CleanTok.text ['x'],
        CleanTok.oscBel ['B'], CleanTok.text ['y']]) ≠
      ([CleanTok.oscBsl ['A'], CleanTok.text ['x'], CleanTok.oscBel ['B'],
        CleanTok.text ['y']].map textContent).flatten := by
  decide

/-- Claim C7 as amended: for a candidate line interleaving printable text
with complete CSI sequences and OSC title sequences (BEL- or
ESC-backslash-terminated), provided no BEL-terminated OSC sequence occurs
after an ESC-backslash-terminated one, cleaning strips every sequence and
every control byte, preserves the printable text, and leaves no residual
escape fragments: the output is exactly the concatenated printable text. -/
theorem clean_interleaved_sequences (ts : List CleanTok)
    (hok : ∀ t ∈ ts, tokOK t = true) (hord : noBelAfterBsl ts = true) :
    cleanSerialOutput (renderToks ts) = (ts.map textContent).flatten := by
  obtain ⟨A, B, rfl, hA, hB⟩ := noBelAfterBsl_decomp ts hord
  rw [cleanSerialOutput, stripCsi_toks _ hok, stripOsc_bel_toks A B hok hA hB,
    stripOsc_bsl_toks _ hok]
  have hplain := textContent_plain _ hok
  have hcr : '\r' ∉ ((A ++ B).map textContent).flatten := by
    intro hm
    have h32 := (plainChar_nat (hplain _ hm)).1
    have h13 : ('\r').toNat = 13 := by decide
    omega
  rw [stripOsc_no_esc isBelOrBsl (fun c hc => plainChar_ne_esc (hplain c hc)),
    stripCtl_id (fun c hc => plainChar_not_stripped (hplain c hc)),
    crlfToLf_no_cr hcr, dropCr_id hcr]

/-- Witness for C7 as amended: a line with a CSI sequence, a BEL-OSC and a
later backslash-OSC interleaved with `a` and `b` cleans to `ab`. -/
theorem clean_interleaved_sequences_witness :
    cleanSerialOutput (renderToks [CleanTok.text ['a'], CleanTok.csiSeq ['2'] 'K',
        CleanTok.oscBel ['t'], CleanTok.oscBsl ['u'], CleanTok.text ['b']]) =
      ([CleanTok.text ['a'], CleanTok.csiSeq ['2'] 'K', CleanTok.oscBel ['t'],
        CleanTok.oscBsl ['u'], CleanTok.text ['b']].map textContent).flatten :=
  clean_interleaved_sequences _ (by decide) (by decide)

/-! ### Byte-level chunking and the non-streaming decode -/

theorem utf8Decode_cons1 (x : Nat) (hx : x < 0x80) (l : List Nat) :
    utf8Decode (x :: l) = Char.ofNat x :: utf8Decode l := by
  rcases l with _ | ⟨c, _ | ⟨d, _ | ⟨e, r⟩⟩⟩ <;> simp [utf8Decode, hx]

theorem utf8Decode_cons2 (x y : Nat) (hx : 0xC2 ≤ x ∧ x ≤ 0xDF)
    (hy : utf8Cont y = true) (l : List Nat) :
    utf8Decode (x :: y :: l) = Char.ofNat (utf8Val2 x y) :: utf8Decode l := by
  have hx8 : ¬x < 0x80 := by omega
  rcases l with _ | ⟨c, _ | ⟨d, r⟩⟩ <;> simp [utf8Decode, hx8, hx, hy]

theorem utf8Decode_cons3 (x y z : Nat) (hx : 0xE0 ≤ x ∧ x ≤ 0xEF)
    (hy : utf8Cont2 x y = true) (hz : utf8Cont z = true) (l : List Nat) :
    utf8Decode (x :: y :: z :: l) = Char.ofNat (utf8Val3 x y z) :: utf8Decode l := by
  have hx8 : ¬x < 0x80 := by omega
  have hxc : ¬(0xC2 ≤ x ∧ x ≤ 0xDF) := by omega
  rcases l with _ | ⟨c, r⟩ <;> simp [utf8Decode, hx8, hxc, hx, hy, hz]

theorem utf8Decode_cons4 (x y z w : Nat) (hx : 0xF0 ≤ x ∧ x ≤ 0xF4)
    (hy : utf8Cont3 x y = true) (hz : utf8Cont z = true) (hw : utf8Cont w = true)
    (l : List Nat) :
    utf8Decode (x :: y :: z :: w :: l) =
      Char.ofNat (utf8Val4 x y z w) :: utf8Decode l := by
  have hx8 : ¬x < 0x80 := by omega
  have hxc : ¬(0xC2 ≤ x ∧ x ≤ 0xDF) := by omega
  have hxe : ¬(0xE0 ≤ x ∧ x ≤ 0xEF) := by omega
  simp [utf8Decode, hx8, hxc, hxe, hx, hy, hz, hw]

theorem utf8Decode_append (bs : List Nat) :
    ∀ (a : List Nat), wellFormedUtf8 a = true →
      utf8Decode (a ++ bs) = utf8Decode a ++ utf8Decode bs := by
  intro a
  induction a using wellFormedUtf8.induct with
  | case1 => intro _; simp [utf8Decode]
  | case2 b =>
    intro h
    simp only [wellFormedUtf8, decide_eq_true_eq] at h
    simp only [List.cons_append, List.nil_append]
    rw [utf8Decode_cons1 b h bs]
    simp [utf8Decode, h]
  | case3 b b2 hb ih =>
    intro h
    simp only [wellFormedUtf8, if_pos hb] at h
    have ih2 := ih h
    simp only [List.cons_append, List.nil_append] at ih2 ⊢
    rw [utf8Decode_cons1 b hb, utf8Decode_cons1 b hb [b2], ih2]
    simp
  | case4 b b2 hb hc =>
    intro h
    simp only [wellFormedUtf8, if_neg hb, if_pos hc] at h
    simp only [List.cons_append, List.nil_append]
    rw [utf8Decode_cons2 b b2 hc h bs, utf8Decode_cons2 b b2 hc h []]
    simp [utf8Decode]
  | case5 b b2 hb hc =>
    intro h
    simp only [wellFormedUtf8, if_neg hb, if_neg hc, Bool.false_eq_true] at h
  | case6 b b2 b3 hb ih =>
    intro h
    simp only [wellFormedUtf8, if_pos hb] at h
    have ih2 := ih h
    simp only [List.cons_append, List.nil_append] at ih2 ⊢
    rw [utf8Decode_cons1 b hb, utf8Decode_cons1 b hb [b2, b3], ih2]
    simp
  | case7 b b2 b3 hb hc ih =>
    intro h
    simp only [wellFormedUtf8, if_neg hb, if_pos hc, Bool.and_eq_true] at h
    have ih2 := ih h.2
    simp only [List.cons_append, List.nil_append] at ih2 ⊢
    rw [utf8Decode_cons2 b b2 hc h.1, utf8Decode_cons2 b b2 hc h.1 [b3], ih2]
    simp
  | case8 b b2 b3 hb hc he =>
    intro h
    simp only [wellFormedUtf8, if_neg hb, if_neg hc, if_pos he, Bool.and_eq_true] at h
    simp only [List.cons_append, List.nil_append]
    rw [utf8Decode_cons3 b b2 b3 he h.1 h.2 bs, utf8Decode_cons3 b b2 b3 he h.1 h.2 []]
    simp [utf8Decode]
  | case9 b b2 b3 hb hc he =>
    intro h
    simp only [wellFormedUtf8, if_neg hb, if_neg hc, if_neg he, Bool.false_eq_true] at h
  | case10 b b2 b3 b4 rest hb ih =>
    intro h
    simp only [wellFormedUtf8, if_pos hb] at h
    have ih2 := ih h
    simp only [List.cons_append] at ih2 ⊢
    rw [utf8Decode_cons1 b hb, utf8Decode_cons1 b hb (b2 :: b3 :: b4 :: rest), ih2]
    simp
  | case11 b b2 b3 b4 rest hb hc ih =>
    intro h
    simp only [wellFormedUtf8, if_neg hb, if_pos hc, Bool.and_eq_true] at h
    have ih2 := ih h.2
    simp only [List.cons_append] at ih2 ⊢
    rw [utf8Decode_cons2 b b2 hc h.1, utf8Decode_cons2 b b2 hc h.1 (b3 :: b4 :: rest),
      ih2]
    simp
  | case12 b b2 b3 b4 rest hb hc he ih =>
    intro h
    simp only [wellFormedUtf8, if_neg hb, if_neg hc, if_pos he, Bool.and_eq_true] at h
    have ih2 := ih h.2
    simp only [List.cons_append] at ih2 ⊢
    rw [utf8Decode_cons3 b b2 b3 he h.1.1 h.1.2,
      utf8Decode_cons3 b b2 b3 he h.1.1 h.1.2 (b4 :: rest), ih2]
    simp
  | case13 b b2 b3 b4 rest hb hc he hf ih =>
    intro h
    simp only [wellFormedUtf8, if_neg hb, if_neg hc, if_neg he, if_pos hf,
      Bool.and_eq_true] at h
    have ih2 := ih h.2
    simp only [List.cons_append] at ih2 ⊢
    rw [utf8Decode_cons4 b b2 b3 b4 hf h.1.1.1 h.1.1.2 h.1.2,
      utf8Decode_cons4 b b2 b3 b4 hf h.1.1.1 h.1.1.2 h.1.2 rest, ih2]
    simp
  | case14 b b2 b3 b4 rest hb hc he hf =>
    intro h
    simp only [wellFormedUtf8, if_neg hb, if_neg hc, if_neg he, if_neg hf,
      Bool.false_eq_true] at h

theorem utf8Decode_flatten (cs : List (List Nat))
    (h : ∀ ch ∈ cs, wellFormedUtf8 ch = true) :
    (cs.map utf8Decode).flatten = utf8Decode cs.flatten := by
  induction cs with
  | nil => simp [utf8Decode]
  | cons ch rest ih =>
    rw [List.map_cons, List.flatten_cons, List.flatten_cons,
      utf8Decode_append rest.flatten ch (h ch (by simp)),
      ih (fun u hu => h u (by simp [hu]))]

/-- Claim C4, counterexample to the claim as stated over byte chunks: the
bytes of `"é\n"` split inside the two-byte character.  Each chunk is
decoded in isolation (`decoder.decode` without `stream: true`,
script.js line 208), so the split chunking decodes to two replacement
characters and the emitted display lines differ. -/
theorem chunk_boundary_bytes_counterexample :
    ([[0xC3, 0xA9, 0x0A]] : List (List Nat)).flatten =
      ([[0xC3], [0xA9, 0x0A]] : List (List Nat)).flatten ∧
    (processChunksBytes [[0xC3, 0xA9, 0x0A]]).1 ≠
      (processChunksBytes [[0xC3], [0xA9, 0x0A]]).1 := by
  decide

/-- Claim C4 as amended: for every finite byte sequence and every two
chunkings that preserve total content and order AND whose chunk
boundaries all fall on UTF-8 character boundaries (each chunk is
well-formed UTF-8), the read loop emits the same sequence of cleaned
display lines and leaves the same buffer; a boundary inside a multi-byte
character is decoded to replacement characters per chunk and can change
the emitted lines. -/
theorem chunk_boundary_independence_bytes (cs1 cs2 : List (List Nat))
    (h : cs1.flatten = cs2.flatten)
    (h1 : ∀ ch ∈ cs1, wellFormedUtf8 ch = true)
    (h2 : ∀ ch ∈ cs2, wellFormedUtf8 ch = true) :
    processChunksBytes cs1 = processChunksBytes cs2 := by
  unfold processChunksBytes
  apply processChunks_eq_of_flatten_eq
  rw [utf8Decode_flatten cs1 h1, utf8Decode_flatten cs2 h2, h]

/-- Witness for C4 as amended: the bytes of `"é\n"` chunked at the
character boundary emit the same lines as the unsplit chunking. -/
theorem chunk_boundary_independence_bytes_witness :
    processChunksBytes [[0xC3, 0xA9, 0x0A]] =
      processChunksBytes [[0xC3, 0xA9], [0x0A]] :=
  chunk_boundary_independence_bytes _ _ rfl (by decide) (by decide)
